import Mathlib

/-!
Verification of the `mitama::unindent` text-transformation library
(`include/unindent/unindent.hpp`).

The two compile-time editors `details::to_unindented` and `details::to_folded`
are modelled as functions over `List Char`.  A `std::array<CharT, N>` input
`raw` (the `basic_fixed_string` payload, a string literal plus its `'\0'`
terminator) is viewed through `basic_string_view(raw.data())`, i.e. the
character sequence before the first `'\0'`; the model works on that viewed
sequence directly.

`std::ranges::min` over an empty range has an unsatisfied precondition
(undefined behaviour; in the `consteval` context of the library, a
compile-time error), so the unindent editor is modelled as returning
`Option`: `none` exactly when the minimum over the indents of the non-blank
lines is taken over an empty range.
-/

namespace Unindent

/-- A line: a maximal `'\n'`-free piece of the text, as produced by
`str | views::split("\n"sv)`. -/
abbrev Line := List Char

/-- Outer trim of `details::to_unindented`:
`while (str.starts_with('\n')) str.remove_prefix(1);` followed by
`while (str.ends_with(' ') or str.ends_with('\n')) str.remove_suffix(1);`. -/
def outerTrim (s : List Char) : List Char :=
  (((s.dropWhile (fun c => c == '\n')).reverse).dropWhile
      (fun c => c == ' ' || c == '\n')).reverse

/-- Splitting the trimmed text into lines: `str | views::split("\n"sv)`.
Like `views::split`, this always yields at least one piece and keeps
empty pieces (blank lines). -/
def splitLines (s : List Char) : List Line :=
  s.splitOn '\n'

/-- IndentWidth of a line:
`ranges::distance(line | views::take_while([](CharT c) { return c == ' '; }))`. -/
def lineIndent (l : Line) : Nat :=
  (l.takeWhile (fun c => c == ' ')).length

/-- The non-blank lines: `lines | views::filter([](auto line) { return !line.empty(); })`. -/
def nonblankLines (lines : List Line) : List Line :=
  lines.filter (fun l => !l.isEmpty)

/-- The indent sizes aggregated over the non-blank lines of a (trimmed) text. -/
def indentsOf (s : List Char) : List Nat :=
  (nonblankLines (splitLines s)).map lineIndent

/-- `remove_indent`: `line.size() >= min ? line | views::drop(min) : line`. -/
def removeIndent (m : Nat) (l : Line) : Line :=
  if m ≤ l.length then l.drop m else l

/-- The character content written by the output loop of `to_unindented`
before the final `buffer[index - 1] = '\0'` overwrite: every stripped line
followed by one `'\n'`. -/
def unindentWriteSeq (s : List Char) : Option (List Char) :=
  match (indentsOf (outerTrim s)).min? with
  | none => none
  | some m => some ((((splitLines (outerTrim s)).map (removeIndent m)).map
      (fun l => l ++ ['\n'])).flatten)

/-- `details::to_unindented`, at the level of the viewed string content:
outer trim, split into lines, take the minimum indent over the non-blank
lines (`std::ranges::min`, undefined — `none` — over an empty range), strip
that indent from every line and re-join the lines with `'\n'`.  Re-joining
with separators is what the output loop produces once the trailing `'\n'`
has been overwritten by the `'\0'` terminator that ends the viewed content. -/
def to_unindented (s : List Char) : Option (List Char) :=
  match (indentsOf (outerTrim s)).min? with
  | none => none
  | some m => some (List.intercalate ['\n']
      ((splitLines (outerTrim s)).map (removeIndent m)))

/-- The `flush` helper of `details::to_folded`: a pending run of more than
one `'\n'` emits a single `'\n'`, a run of exactly one emits a single
`' '`, an empty run emits nothing. -/
def foldFlush (returns : Nat) : List Char :=
  if returns > 1 then ['\n'] else if returns == 1 then [' '] else []

/-- The character scan of `details::to_folded` over the unindented content,
carrying the `returns` counter.  The loop of the C++ code iterates over the
whole `std::array` returned by `to_unindented`; the first array element
after the unindented content is the `'\0'` terminator, which is not `'\n'`
and therefore forces one final `flush()` before it is itself written, and
the folded value is read up to that first written `'\0'`.  Hence at the end
of the content the pending counter is flushed once. -/
def foldCore : List Char → Nat → List Char
  | [], returns => foldFlush returns
  | c :: cs, returns =>
    if c == '\n' then foldCore cs (returns + 1)
    else foldFlush returns ++ c :: foldCore cs 0

/-- `details::to_folded` at the level of the viewed string content:
`to_unindented` followed by the newline-collapsing scan. -/
def to_folded (s : List Char) : Option (List Char) :=
  (to_unindented s).map (fun u => foldCore u 0)

end Unindent

namespace Unindent

/-! ### Generic list helpers -/

theorem intercalate_nil_list (sep : List Char) : List.intercalate sep [] = [] := rfl

theorem intercalate_single (sep l : List Char) : List.intercalate sep [l] = l := by
  simp [List.intercalate]

theorem intercalate_cons₂ (sep a b : List Char) (ls : List (List Char)) :
    List.intercalate sep (a :: b :: ls) = a ++ sep ++ List.intercalate sep (b :: ls) := by
  simp [List.intercalate]

theorem intercalate_append_single (sep lp : List Char) (ls : List (List Char))
    (h : ls ≠ []) :
    List.intercalate sep (ls ++ [lp]) = List.intercalate sep ls ++ sep ++ lp := by
  induction ls with
  | nil => exact absurd rfl h
  | cons a as ih =>
    cases as with
    | nil => simp [intercalate_single, intercalate_cons₂]
    | cons b bs =>
      simp only [List.cons_append] at ih ⊢
      rw [intercalate_cons₂, intercalate_cons₂, ih (by simp)]
      simp [List.append_assoc]

theorem mem_intercalate (sep : List Char) (ls : List (List Char)) (x : Char)
    (hx : x ∈ List.intercalate sep ls) : (∃ l ∈ ls, x ∈ l) ∨ x ∈ sep := by
  induction ls with
  | nil => simp [intercalate_nil_list] at hx
  | cons a as ih =>
    cases as with
    | nil => rw [intercalate_single] at hx; exact Or.inl ⟨a, by simp, hx⟩
    | cons b bs =>
      rw [intercalate_cons₂] at hx
      rcases List.mem_append.1 hx with h | h
      · rcases List.mem_append.1 h with h | h
        · exact Or.inl ⟨a, by simp, h⟩
        · exact Or.inr h
      · rcases ih h with ⟨l, hl, hxl⟩ | h
        · exact Or.inl ⟨l, by simp [hl], hxl⟩
        · exact Or.inr h

theorem mem_of_mem_intercalate (sep : List Char) (ls : List (List Char)) (l : List Char)
    (hl : l ∈ ls) (x : Char) (hx : x ∈ l) : x ∈ List.intercalate sep ls := by
  induction ls with
  | nil => simp at hl
  | cons a as ih =>
    cases as with
    | nil =>
      rw [intercalate_single]
      simp at hl
      exact hl ▸ hx
    | cons b bs =>
      rw [intercalate_cons₂]
      rcases List.mem_cons.1 hl with rfl | hl
      · exact List.mem_append.2 (Or.inl (List.mem_append.2 (Or.inl hx)))
      · exact List.mem_append.2 (Or.inr (ih hl))

theorem length_intercalate_le (sep : List Char) (f : List Char → List Char)
    (hf : ∀ l, (f l).length ≤ l.length) (ls : List (List Char)) :
    (List.intercalate sep (ls.map f)).length ≤ (List.intercalate sep ls).length := by
  induction ls with
  | nil => simp
  | cons a as ih =>
    cases as with
    | nil => simpa [intercalate_single] using hf a
    | cons b bs =>
      simp only [List.map_cons] at ih ⊢
      rw [intercalate_cons₂, intercalate_cons₂]
      simp only [List.length_append]
      have := hf a
      omega

theorem flatten_map_append_single (sep : Char) (ls : List (List Char)) (h : ls ≠ []) :
    ((ls.map (fun l => l ++ [sep])).flatten) = List.intercalate [sep] ls ++ [sep] := by
  induction ls with
  | nil => exact absurd rfl h
  | cons a as ih =>
    cases as with
    | nil => simp [intercalate_single]
    | cons b bs =>
      rw [List.map_cons, List.flatten_cons, ih (by simp), intercalate_cons₂]
      simp [List.append_assoc]

theorem not_mem_splitOn (x : Char) (xs : List Char) : ∀ l ∈ xs.splitOn x, x ∉ l := by
  induction xs with
  | nil =>
    intro l hl
    rw [List.splitOn_nil] at hl
    simp at hl
    simp [hl]
  | cons a as ih =>
    intro l hl
    simp only [List.splitOn] at hl ih
    rw [List.splitOnP_cons] at hl
    by_cases h : a = x
    · rw [if_pos (by simp [h])] at hl
      rcases List.mem_cons.1 hl with rfl | hl
      · simp
      · exact ih l hl
    · rw [if_neg (by simp [h])] at hl
      rcases hp : as.splitOnP (· == x) with _ | ⟨p0, ps⟩
      · exact absurd hp (List.splitOnP_ne_nil _ _)
      · rw [hp] at hl
        simp only [List.modifyHead] at hl
        rcases List.mem_cons.1 hl with rfl | hl
        · intro hmem
          rcases List.mem_cons.1 hmem with rfl | hmem
          · exact h rfl
          · exact ih p0 (by rw [hp]; exact List.mem_cons_self _ _) hmem
        · exact ih l (by rw [hp]; exact List.mem_cons_of_mem _ hl)

theorem splitOn_ne_nil (x : Char) (xs : List Char) : xs.splitOn x ≠ [] := by
  simp only [List.splitOn]
  exact List.splitOnP_ne_nil _ _

theorem head_ne_of_splitOn_head (x : Char) (c : Char) (t : List Char) (hc : ¬(c = x)) :
    ∃ p ps, (c :: t).splitOn x = (c :: p) :: ps := by
  simp only [List.splitOn]
  rw [List.splitOnP_cons, if_neg (by simp [hc])]
  rcases hp : t.splitOnP (· == x) with _ | ⟨p0, ps⟩
  · exact absurd hp (List.splitOnP_ne_nil _ _)
  · exact ⟨p0, ps, rfl⟩

theorem head?_dropWhile_ne (p : Char → Bool) (l : List Char) (a : Char)
    (h : (l.dropWhile p).head? = some a) : p a = false := by
  induction l with
  | nil => simp at h
  | cons c cs ih =>
    rw [List.dropWhile_cons] at h
    by_cases hc : p c
    · rw [if_pos hc] at h
      exact ih h
    · rw [if_neg hc] at h
      simp at h
      subst h
      exact Bool.eq_false_iff.2 hc

theorem getLast?_drop_of_lt (n : Nat) (l : List Char) (h : n < l.length) :
    (l.drop n).getLast? = l.getLast? := by
  have hne : l.drop n ≠ [] := by
    intro hnil
    have hlen := List.length_drop n l
    rw [hnil] at hlen
    simp at hlen
    omega
  conv_rhs => rw [← List.take_append_drop n l]
  rw [List.getLast?_append]
  rcases hx : (l.drop n).getLast? with _ | a
  · exact absurd (List.getLast?_eq_none_iff.1 hx) hne
  · rfl

end Unindent

namespace Unindent

/-! ### Properties of the outer trim -/

theorem outerTrim_head_ne (s : List Char) :
    ∀ h, (outerTrim s).head? = some h → ¬(h = '\n') := by
  intro h hh
  unfold outerTrim at hh
  have hsuf : ((s.dropWhile (fun c => c == '\n')).reverse.dropWhile
      (fun c => c == ' ' || c == '\n')) <:+ (s.dropWhile (fun c => c == '\n')).reverse :=
    List.dropWhile_suffix _
  obtain ⟨pre, hpre⟩ := hsuf
  have hrev := congrArg List.reverse hpre
  rw [List.reverse_append, List.reverse_reverse] at hrev
  have hh1 : (s.dropWhile (fun c => c == '\n')).head? = some h := by
    rw [← hrev, List.head?_append, hh]
    rfl
  have hne := head?_dropWhile_ne (fun c => c == '\n') s h hh1
  simp at hne
  exact hne

theorem outerTrim_getLast_ne (s : List Char) :
    ∀ g, (outerTrim s).getLast? = some g → ¬(g = ' ' ∨ g = '\n') := by
  intro g hg
  unfold outerTrim at hg
  rw [List.getLast?_reverse] at hg
  have := head?_dropWhile_ne _ _ g hg
  simp at this
  intro hc
  rcases hc with hc | hc
  · exact this.1 hc
  · exact this.2 hc

theorem outerTrim_eq_self (U : List Char)
    (h1 : ∀ h, U.head? = some h → ¬(h = '\n'))
    (h2 : ∀ g, U.getLast? = some g → ¬(g = ' ' ∨ g = '\n')) :
    outerTrim U = U := by
  unfold outerTrim
  have e1 : U.dropWhile (fun c => c == '\n') = U := by
    cases U with
    | nil => rfl
    | cons c cs =>
      rw [List.dropWhile_cons, if_neg]
      simp
      exact h1 c rfl
  rw [e1]
  have e2 : U.reverse.dropWhile (fun c => c == ' ' || c == '\n') = U.reverse := by
    cases hU : U.reverse with
    | nil => rfl
    | cons c cs =>
      have hc : U.getLast? = some c := by
        rw [← List.head?_reverse, hU]
        rfl
      rw [List.dropWhile_cons, if_neg]
      have := h2 c hc
      simp
      constructor
      · exact fun hsp => this (Or.inl hsp)
      · exact fun hnl => this (Or.inr hnl)
  rw [e2, List.reverse_reverse]

theorem outerTrim_length_le (s : List Char) : (outerTrim s).length ≤ s.length := by
  unfold outerTrim
  rw [List.length_reverse]
  calc ((s.dropWhile (fun c => c == '\n')).reverse.dropWhile
          (fun c => c == ' ' || c == '\n')).length
      ≤ (s.dropWhile (fun c => c == '\n')).reverse.length :=
        (List.dropWhile_sublist _).length_le
    _ = (s.dropWhile (fun c => c == '\n')).length := List.length_reverse _
    _ ≤ s.length := (List.dropWhile_sublist _).length_le

theorem mem_outerTrim (s : List Char) : ∀ c ∈ outerTrim s, c ∈ s := by
  intro c hc
  unfold outerTrim at hc
  rw [List.mem_reverse] at hc
  have hc2 := (List.dropWhile_sublist _).subset hc
  rw [List.mem_reverse] at hc2
  exact (List.dropWhile_sublist _).subset hc2

/-! ### Lines of a text and of the unindented output -/

theorem splitLines_not_mem_nl (s : List Char) : ∀ l ∈ splitLines s, '\n' ∉ l := by
  intro l hl
  exact not_mem_splitOn '\n' s l hl

theorem splitLines_ne_nil (s : List Char) : splitLines s ≠ [] :=
  splitOn_ne_nil '\n' s

theorem intercalate_splitLines (s : List Char) :
    List.intercalate ['\n'] (splitLines s) = s :=
  List.intercalate_splitOn s '\n'

theorem splitLines_intercalate (ls : List Line)
    (h1 : ∀ l ∈ ls, '\n' ∉ l) (h2 : ls ≠ []) :
    splitLines (List.intercalate ['\n'] ls) = ls :=
  List.splitOn_intercalate ls '\n' h1 h2

theorem removeIndent_subset (m : Nat) (l : Line) : ∀ c ∈ removeIndent m l, c ∈ l := by
  intro c hc
  unfold removeIndent at hc
  split at hc
  · exact List.drop_subset _ _ hc
  · exact hc

theorem removeIndent_length_le (m : Nat) (l : Line) :
    (removeIndent m l).length ≤ l.length := by
  unfold removeIndent
  split
  · rw [List.length_drop]
    omega
  · exact Nat.le_refl _

theorem to_unindented_eq_some (s U : List Char) :
    to_unindented s = some U ↔
      ∃ m, (indentsOf (outerTrim s)).min? = some m ∧
        U = List.intercalate ['\n'] ((splitLines (outerTrim s)).map (removeIndent m)) := by
  unfold to_unindented
  cases hm : (indentsOf (outerTrim s)).min? with
  | none => simp
  | some m =>
    simp only [Option.some.injEq]
    constructor
    · intro hh
      exact ⟨m, rfl, hh.symm⟩
    · rintro ⟨m', hm', hU⟩
      subst hm'
      exact hU.symm

theorem splitLines_unindented (s U : List Char) (m : Nat)
    (hmin : (indentsOf (outerTrim s)).min? = some m)
    (hU : to_unindented s = some U) :
    splitLines U = (splitLines (outerTrim s)).map (removeIndent m) := by
  obtain ⟨m', hmin', hUeq⟩ := (to_unindented_eq_some s U).1 hU
  rw [hmin] at hmin'
  injection hmin' with hmm
  subst hmm
  subst hUeq
  apply splitLines_intercalate
  · intro l hl
    rcases List.mem_map.1 hl with ⟨l0, hl0, rfl⟩
    intro hnl
    exact splitLines_not_mem_nl _ l0 hl0 (removeIndent_subset _ _ _ hnl)
  · simp [splitLines_ne_nil]

theorem mem_indentsOf (t : List Char) (l : Line) (hl : l ∈ splitLines t) (hne : l ≠ []) :
    lineIndent l ∈ indentsOf t := by
  unfold indentsOf nonblankLines
  exact List.mem_map.2 ⟨l, List.mem_filter.2 ⟨hl, by simp [hne]⟩, rfl⟩

theorem min_le_lineIndent (t : List Char) (m : Nat)
    (hmin : (indentsOf t).min? = some m) (l : Line) (hl : l ∈ splitLines t)
    (hne : l ≠ []) : m ≤ lineIndent l := by
  have h := (List.min?_eq_some_iff'.1 hmin).2
  exact h _ (mem_indentsOf t l hl hne)

theorem lineIndent_le_length (l : Line) : lineIndent l ≤ l.length := by
  unfold lineIndent
  conv_rhs => rw [← List.takeWhile_append_dropWhile (fun c => c == ' ') l]
  rw [List.length_append]
  omega

theorem lineIndent_lt_length (l : Line) (c : Char) (hc : c ∈ l) (hcs : ¬(c = ' ')) :
    lineIndent l < l.length := by
  have hne : l.dropWhile (fun c => c == ' ') ≠ [] := by
    intro hnil
    have := List.dropWhile_eq_nil_iff.1 hnil c hc
    simp at this
    exact hcs this
  have hlen : lineIndent l + (l.dropWhile (fun c => c == ' ')).length = l.length := by
    unfold lineIndent
    rw [← List.length_append, List.takeWhile_append_dropWhile]
  have : 0 < (l.dropWhile (fun c => c == ' ')).length := List.length_pos.2 hne
  omega

theorem drop_lineIndent (l : Line) :
    l.drop (lineIndent l) = l.dropWhile (fun c => c == ' ') := by
  calc l.drop (lineIndent l)
      = (l.takeWhile (fun c => c == ' ') ++ l.dropWhile (fun c => c == ' ')).drop
          (lineIndent l) := by
        rw [List.takeWhile_append_dropWhile]
    _ = l.dropWhile (fun c => c == ' ') := List.drop_left' rfl

theorem lineIndent_dropWhile_zero (l : Line) :
    lineIndent (l.dropWhile (fun c => c == ' ')) = 0 := by
  cases h : l.dropWhile (fun c => c == ' ') with
  | nil => rfl
  | cons c cs =>
    have : (l.dropWhile (fun c => c == ' ')).head? = some c := by rw [h]; rfl
    have hc := head?_dropWhile_ne _ _ c this
    unfold lineIndent
    rw [List.takeWhile_cons, hc]
    rfl

end Unindent

namespace Unindent

theorem getLast?_append_right (l₁ l₂ : List Char) (h : l₂ ≠ []) :
    (l₁ ++ l₂).getLast? = l₂.getLast? := by
  rw [List.getLast?_append]
  rcases hx : l₂.getLast? with _ | a
  · exact absurd (List.getLast?_eq_none_iff.1 hx) h
  · rfl

theorem outerTrim_ne_nil_of_min (s : List Char) (m : Nat)
    (hmin : (indentsOf (outerTrim s)).min? = some m) : outerTrim s ≠ [] := by
  intro h
  rw [h] at hmin
  simp [indentsOf, splitLines, nonblankLines] at hmin

theorem last_piece (t : List Char) (hne : t ≠ [])
    (hlast : ∀ g, t.getLast? = some g → ¬(g = ' ' ∨ g = '\n')) :
    ∃ ps lp, splitLines t = ps ++ [lp] ∧ lp ≠ [] ∧ lp.getLast? = t.getLast? := by
  rcases List.eq_nil_or_concat (splitLines t) with h | ⟨ps, lp, h⟩
  · exact absurd h (splitLines_ne_nil t)
  · rw [List.concat_eq_append] at h
    have ht : List.intercalate ['\n'] (ps ++ [lp]) = t := by
      rw [← h, intercalate_splitLines]
    cases ps with
    | nil =>
      rw [List.nil_append] at h ht
      rw [intercalate_single] at ht
      exact ⟨[], lp, h, fun hnil => hne (ht ▸ hnil ▸ rfl), by rw [ht]⟩
    | cons a as =>
      rw [intercalate_append_single _ _ _ (by simp)] at ht
      have hlp : lp ≠ [] := by
        intro hnil
        subst hnil
        rw [List.append_nil] at ht
        have hlast' : t.getLast? = some '\n' := by
          rw [← ht]
          exact List.getLast?_concat _
        exact hlast '\n' hlast' (Or.inr rfl)
      refine ⟨a :: as, lp, h, hlp, ?_⟩
      rw [← ht, getLast?_append_right _ _ hlp]

theorem unindented_structure (s U : List Char) (m : Nat)
    (hmin : (indentsOf (outerTrim s)).min? = some m)
    (hU : to_unindented s = some U) :
    U ≠ [] ∧ U.getLast? = (outerTrim s).getLast? := by
  have htne : outerTrim s ≠ [] := outerTrim_ne_nil_of_min s m hmin
  obtain ⟨ps, lp, hsplit, hlpne, hlplast⟩ :=
    last_piece (outerTrim s) htne (outerTrim_getLast_ne s)
  obtain ⟨g, hg⟩ : ∃ g, lp.getLast? = some g := by
    rcases hx : lp.getLast? with _ | g
    · exact absurd (List.getLast?_eq_none_iff.1 hx) hlpne
    · exact ⟨g, rfl⟩
  have hgmem : g ∈ lp := List.mem_of_getLast?_eq_some hg
  have hgne : ¬(g = ' ' ∨ g = '\n') := by
    apply outerTrim_getLast_ne s
    rw [← hlplast]
    exact hg
  have hlp_mem : lp ∈ splitLines (outerTrim s) := by rw [hsplit]; simp
  have hmle : m ≤ lineIndent lp := min_le_lineIndent _ m hmin lp hlp_mem hlpne
  have hlt : lineIndent lp < lp.length :=
    lineIndent_lt_length lp g hgmem (fun h => hgne (Or.inl h))
  have hrem : removeIndent m lp = lp.drop m := by
    unfold removeIndent
    rw [if_pos (by omega)]
  have hdropne : lp.drop m ≠ [] := by
    intro h
    have hlen := List.length_drop m lp
    rw [h] at hlen
    simp at hlen
    omega
  have hdroplast : (lp.drop m).getLast? = lp.getLast? :=
    getLast?_drop_of_lt m lp (by omega)
  obtain ⟨m', hmin', hUeq⟩ := (to_unindented_eq_some s U).1 hU
  rw [hmin] at hmin'
  injection hmin' with he
  subst he
  rw [hsplit, List.map_append, List.map_singleton] at hUeq
  have hremne : removeIndent m lp ≠ [] := by rw [hrem]; exact hdropne
  have hremlast : (removeIndent m lp).getLast? = (outerTrim s).getLast? := by
    rw [hrem, hdroplast, hlplast]
  cases hps : ps.map (removeIndent m) with
  | nil =>
    rw [hps, List.nil_append, intercalate_single] at hUeq
    subst hUeq
    exact ⟨hremne, hremlast⟩
  | cons a as =>
    rw [hps] at hUeq
    rw [intercalate_append_single _ _ _ (by simp)] at hUeq
    subst hUeq
    constructor
    · simp [hremne]
    · rw [getLast?_append_right _ _ hremne, hremlast]

theorem unindented_ne_nil (s U : List Char) (hU : to_unindented s = some U) :
    U ≠ [] := by
  obtain ⟨m, hmin, _⟩ := (to_unindented_eq_some s U).1 hU
  exact (unindented_structure s U m hmin hU).1

theorem unindented_getLast_ne (s U : List Char) (hU : to_unindented s = some U) :
    ∀ g, U.getLast? = some g → ¬(g = ' ' ∨ g = '\n') := by
  obtain ⟨m, hmin, _⟩ := (to_unindented_eq_some s U).1 hU
  intro g hg
  apply outerTrim_getLast_ne s
  rw [← (unindented_structure s U m hmin hU).2]
  exact hg

theorem to_unindented_isSome_iff (s : List Char) :
    (to_unindented s).isSome ↔ outerTrim s ≠ [] := by
  constructor
  · intro h
    obtain ⟨U, hU⟩ := Option.isSome_iff_exists.1 h
    obtain ⟨m, hmin, _⟩ := (to_unindented_eq_some s U).1 hU
    exact outerTrim_ne_nil_of_min s m hmin
  · intro h
    obtain ⟨ps, lp, hsplit, hlpne, _⟩ :=
      last_piece (outerTrim s) h (outerTrim_getLast_ne s)
    have hmem : lineIndent lp ∈ indentsOf (outerTrim s) :=
      mem_indentsOf _ lp (by rw [hsplit]; simp) hlpne
    have hne : indentsOf (outerTrim s) ≠ [] := by
      intro hnil
      rw [hnil] at hmem
      simp at hmem
    unfold to_unindented
    cases hm : (indentsOf (outerTrim s)).min? with
    | none => exact absurd (List.min?_eq_none_iff.1 hm) hne
    | some m => rfl

theorem exists_nonblank_iff (s : List Char) :
    (∃ l ∈ splitLines (outerTrim s), l ≠ []) ↔ outerTrim s ≠ [] := by
  constructor
  · rintro ⟨l, hl, hlne⟩ h0
    rw [h0] at hl
    simp [splitLines] at hl
    exact hlne hl
  · intro h
    obtain ⟨ps, lp, hsplit, hlpne, _⟩ :=
      last_piece (outerTrim s) h (outerTrim_getLast_ne s)
    exact ⟨lp, by rw [hsplit]; simp, hlpne⟩

end Unindent

namespace Unindent

/-! ### The run-collapse description of fold, from the specification -/

/-- Modelled from the spec: the separator that a maximal newline run of
length `k` is replaced by — a single space if `k = 1`, a single newline if
`k ≥ 2`, nothing if `k = 0`. -/
def specSep (k : Nat) : List Char :=
  if k = 1 then [' '] else if 2 ≤ k then ['\n'] else []

/-- Modelled from the spec: run-collapse of a text.  Each maximal run of
consecutive `'\n'` characters followed by a non-newline character `c` is
replaced by `specSep` of the run length, before `c`; a run at the very end
of the text (or a text consisting only of newlines) is discarded
entirely. -/
def specCollapse (u : List Char) : List Char :=
  if hu : (u.dropWhile (fun c => c == '\n')) = [] then []
  else
    specSep (u.takeWhile (fun c => c == '\n')).length
      ++ (u.dropWhile (fun c => c == '\n')).head hu
        :: specCollapse ((u.dropWhile (fun c => c == '\n')).tail)
termination_by u.length
decreasing_by
  have hle : (u.dropWhile (fun c => c == '\n')).length ≤ u.length :=
    (List.dropWhile_sublist _).length_le
  have hpos : 0 < (u.dropWhile (fun c => c == '\n')).length := List.length_pos.2 hu
  have := List.length_tail (u.dropWhile (fun c => c == '\n'))
  omega

theorem specCollapse_of_dropWhile_nil (u : List Char)
    (h : u.dropWhile (fun c => c == '\n') = []) : specCollapse u = [] := by
  rw [specCollapse]
  rw [dif_pos h]

theorem specCollapse_nil : specCollapse [] = [] :=
  specCollapse_of_dropWhile_nil [] rfl

theorem takeWhile_replicate_append (k : Nat) (c : Char) (rest : List Char)
    (hc : ¬(c = '\n')) :
    (List.replicate k '\n' ++ c :: rest).takeWhile (fun c => c == '\n')
      = List.replicate k '\n' := by
  induction k with
  | zero => simp [List.takeWhile_cons, hc]
  | succ k ih => simp [List.replicate_succ, List.takeWhile_cons, ih]

theorem dropWhile_replicate_append (k : Nat) (c : Char) (rest : List Char)
    (hc : ¬(c = '\n')) :
    (List.replicate k '\n' ++ c :: rest).dropWhile (fun c => c == '\n')
      = c :: rest := by
  induction k with
  | zero => simp [List.dropWhile_cons, hc]
  | succ k ih => simp [List.replicate_succ, List.dropWhile_cons, ih]

theorem foldFlush_eq_specSep (k : Nat) : foldFlush k = specSep k := by
  unfold foldFlush specSep
  rcases k with _ | _ | k
  · rfl
  · rfl
  · simp [show (1 : Nat) < k + 2 by omega, show ¬(k + 2 = 1) by omega,
      show 2 ≤ k + 2 by omega]

theorem specCollapse_replicate_append (k : Nat) (c : Char) (rest : List Char)
    (hc : ¬(c = '\n')) :
    specCollapse (List.replicate k '\n' ++ c :: rest)
      = specSep k ++ c :: specCollapse rest := by
  have hdrop := dropWhile_replicate_append k c rest hc
  have htake := takeWhile_replicate_append k c rest hc
  rw [specCollapse]
  simp only [hdrop, htake]
  rw [dif_neg (by simp)]
  simp [List.length_replicate]

theorem foldCore_cons (c : Char) (cs : List Char) (r : Nat) :
    foldCore (c :: cs) r
      = if c == '\n' then foldCore cs (r + 1)
        else foldFlush r ++ c :: foldCore cs 0 := rfl

theorem foldCore_replicate_append (k r : Nat) (c : Char) (rest : List Char)
    (hc : ¬(c = '\n')) :
    foldCore (List.replicate k '\n' ++ c :: rest) r
      = foldFlush (r + k) ++ c :: foldCore rest 0 := by
  induction k generalizing r with
  | zero =>
    simp only [List.replicate, List.nil_append]
    rw [foldCore_cons, if_neg (by simp [hc]), Nat.add_zero]
  | succ k ih =>
    rw [List.replicate_succ, List.cons_append, foldCore_cons, if_pos (by simp),
      ih (r + 1)]
    have harith : r + 1 + k = r + (k + 1) := by omega
    rw [harith]

theorem newline_decomp (u : List Char) (c : Char) (rest : List Char)
    (hdw : u.dropWhile (fun c => c == '\n') = c :: rest) :
    u = List.replicate ((u.takeWhile (fun c => c == '\n')).length) '\n'
        ++ c :: rest ∧ ¬(c = '\n') := by
  have hc : ¬(c = '\n') := by
    have hh : (u.dropWhile (fun c => c == '\n')).head? = some c := by rw [hdw]; rfl
    have := head?_dropWhile_ne _ _ c hh
    simpa using this
  constructor
  · have hk : u.takeWhile (fun c => c == '\n')
        = List.replicate ((u.takeWhile (fun c => c == '\n')).length) '\n' := by
      apply List.eq_replicate_iff.2
      refine ⟨rfl, ?_⟩
      intro b hb
      have := List.mem_takeWhile_imp hb
      simpa using this
    conv_lhs => rw [← List.takeWhile_append_dropWhile (fun c => c == '\n') u]
    rw [hdw, ← hk]
  · exact hc

theorem foldCore_eq_specCollapse_aux (n : Nat) :
    ∀ u : List Char, u.length ≤ n → (∀ g, u.getLast? = some g → ¬(g = '\n')) →
      foldCore u 0 = specCollapse u := by
  induction n with
  | zero =>
    intro u hu _
    have hnil : u = [] := List.length_eq_zero.1 (Nat.le_zero.1 hu)
    subst hnil
    rw [specCollapse_nil]
    rfl
  | succ n ih =>
    intro u hu hlast
    cases hdw : u.dropWhile (fun c => c == '\n') with
    | nil =>
      have hall := List.dropWhile_eq_nil_iff.1 hdw
      rw [specCollapse_of_dropWhile_nil u hdw]
      cases hu0 : u with
      | nil => rfl
      | cons a as =>
        exfalso
        have hne : u ≠ [] := by rw [hu0]; simp
        obtain ⟨g, hg⟩ : ∃ g, u.getLast? = some g := by
          rcases hx : u.getLast? with _ | g
          · exact absurd (List.getLast?_eq_none_iff.1 hx) hne
          · exact ⟨g, rfl⟩
        have hgm : g ∈ u := List.mem_of_getLast?_eq_some hg
        have hgnl := hall g hgm
        simp at hgnl
        exact hlast g hg hgnl
    | cons c rest =>
      obtain ⟨hdecomp, hc⟩ := newline_decomp u c rest hdw
      have hlen : u.length
          = (u.takeWhile (fun c => c == '\n')).length + 1 + rest.length := by
        conv_lhs => rw [hdecomp]
        simp [List.length_append, List.length_replicate]
        omega
      have hrest_last : ∀ g, rest.getLast? = some g → ¬(g = '\n') := by
        intro g hg
        apply hlast g
        rw [hdecomp]
        have hrne : rest ≠ [] := by
          intro hnil
          rw [hnil] at hg
          simp at hg
        rw [getLast?_append_right _ _ (by simp)]
        have : c :: rest = [c] ++ rest := rfl
        rw [this, getLast?_append_right _ _ hrne]
        exact hg
      conv_lhs => rw [hdecomp]
      conv_rhs => rw [hdecomp]
      rw [foldCore_replicate_append _ _ _ _ hc,
        specCollapse_replicate_append _ _ _ hc,
        Nat.zero_add, foldFlush_eq_specSep,
        ih rest (by omega) hrest_last]

theorem foldCore_eq_specCollapse (u : List Char)
    (hlast : ∀ g, u.getLast? = some g → ¬(g = '\n')) :
    foldCore u 0 = specCollapse u :=
  foldCore_eq_specCollapse_aux u.length u (Nat.le_refl _) hlast

theorem specCollapse_nl_mem_aux (n : Nat) :
    ∀ u : List Char, u.length ≤ n → '\n' ∈ specCollapse u →
      ∃ l r, u = l ++ '\n' :: '\n' :: r := by
  induction n with
  | zero =>
    intro u hu hm
    have hnil : u = [] := List.length_eq_zero.1 (Nat.le_zero.1 hu)
    subst hnil
    rw [specCollapse_nil] at hm
    simp at hm
  | succ n ih =>
    intro u hu hm
    cases hdw : u.dropWhile (fun c => c == '\n') with
    | nil =>
      rw [specCollapse_of_dropWhile_nil u hdw] at hm
      simp at hm
    | cons c rest =>
      obtain ⟨hdecomp, hc⟩ := newline_decomp u c rest hdw
      have hlen : u.length
          = (u.takeWhile (fun c => c == '\n')).length + 1 + rest.length := by
        conv_lhs => rw [hdecomp]
        simp [List.length_append, List.length_replicate]
        omega
      rw [hdecomp] at hm ⊢
      rw [specCollapse_replicate_append _ _ _ hc] at hm
      rcases List.mem_append.1 hm with hm | hm
      · unfold specSep at hm
        by_cases h1 : (u.takeWhile (fun c => c == '\n')).length = 1
        · rw [if_pos h1] at hm
          simp at hm
        · rw [if_neg h1] at hm
          by_cases h2 : 2 ≤ (u.takeWhile (fun c => c == '\n')).length
          · refine ⟨[], List.replicate ((u.takeWhile (fun c => c == '\n')).length - 2) '\n'
              ++ c :: rest, ?_⟩
            rw [List.nil_append]
            have hk : (u.takeWhile (fun c => c == '\n')).length
                = ((u.takeWhile (fun c => c == '\n')).length - 2) + 2 := by omega
            conv_lhs => rw [hk]
            rw [Nat.add_comm, List.replicate_add]
            rfl
          · rw [if_neg h2] at hm
            simp at hm
      · rcases List.mem_cons.1 hm with hm | hm
        · exact absurd hm.symm hc
        · obtain ⟨l, r, hlr⟩ := ih rest (by omega) hm
          refine ⟨List.replicate ((u.takeWhile (fun c => c == '\n')).length) '\n'
            ++ c :: l, r, ?_⟩
          rw [hlr]
          simp [List.append_assoc]

theorem specCollapse_nl_mem (u : List Char) (hm : '\n' ∈ specCollapse u) :
    ∃ l r, u = l ++ '\n' :: '\n' :: r :=
  specCollapse_nl_mem_aux u.length u (Nat.le_refl _) hm

end Unindent

namespace Unindent

theorem removeIndent_zero (l : Line) : removeIndent 0 l = l := by
  unfold removeIndent
  rw [if_pos (Nat.zero_le _)]
  exact List.drop_zero l

/-! ### Claim C1 -/

/-- C1 counterexample: the claim asserts that unindent is total and a no-op
on all-blank raw text; but on the all-blank raw text `" \n "` the code's
outer trim leaves the empty text, there are zero non-blank lines, and
`std::ranges::min` is taken over an empty range — an unsatisfied
precondition, modelled `none` — instead of returning the (empty)
outer-trimmed text unchanged. -/
theorem c1_counterexample : to_unindented (" \n ".toList) = none := by decide

/-- C1 (amended): the unindent transformation is defined exactly on the raw
texts whose outer-trimmed form has at least one non-blank line,
equivalently whose outer-trimmed form is nonempty; on all other texts the
minimum-indent computation runs over an empty range and the transformation
fails. -/
theorem c1_amended_total (s : List Char) :
    ((to_unindented s).isSome ↔ (∃ l ∈ splitLines (outerTrim s), l ≠ []))
    ∧ ((∃ l ∈ splitLines (outerTrim s), l ≠ []) ↔ outerTrim s ≠ []) :=
  ⟨Iff.trans (to_unindented_isSome_iff s) (exists_nonblank_iff s).symm,
    exists_nonblank_iff s⟩

/-! ### Claim C2 -/

/-- C2 counterexample: for the raw text `"  \n   x"` (an all-space line of
width two followed by a line of indent three), the minimum indent is 2, the
all-space line strips to an empty line, and the output `"\n x"` has exactly
one non-blank line, of indent 1 — no non-blank output line has indent 0,
contradicting the claim. -/
theorem c2_counterexample :
    to_unindented ("  \n   x".toList) = some ("\n x".toList)
    ∧ ¬(∃ l ∈ splitLines ("\n x".toList), l ≠ [] ∧ lineIndent l = 0) := by
  constructor
  · decide
  · decide

/-- C2 (amended): for every raw text with at least one non-blank line after
outer trim, every non-blank line of the output has IndentWidth ≥ 0; and
provided some line of the outer-trimmed text attains the minimum indent and
contains a non-space character, at least one non-blank line of the output
has IndentWidth exactly 0. -/
theorem c2_amended (s U : List Char) (m : Nat)
    (hmin : (indentsOf (outerTrim s)).min? = some m)
    (hU : to_unindented s = some U) :
    (∀ l ∈ splitLines U, 0 ≤ lineIndent l)
    ∧ ((∃ l ∈ splitLines (outerTrim s), lineIndent l = m ∧ m < l.length) →
        ∃ l ∈ splitLines U, l ≠ [] ∧ lineIndent l = 0) := by
  constructor
  · intro l _
    exact Nat.zero_le _
  · rintro ⟨l, hl, hind, hlt⟩
    have hlines := splitLines_unindented s U m hmin hU
    have hrem : removeIndent m l = l.drop m := by
      unfold removeIndent
      rw [if_pos (by omega)]
    refine ⟨removeIndent m l, ?_, ?_, ?_⟩
    · rw [hlines]
      exact List.mem_map.2 ⟨l, hl, rfl⟩
    · rw [hrem]
      intro hnil
      have hlen := List.length_drop m l
      rw [hnil] at hlen
      simp at hlen
      omega
    · rw [hrem, ← hind, drop_lineIndent, lineIndent_dropWhile_zero]

theorem c2_amended_witness :
    ∃ l ∈ splitLines ("a\nb".toList), l ≠ [] ∧ lineIndent l = 0 :=
  (c2_amended ("\n  a\n  b\n".toList) ("a\nb".toList) 2 (by decide) (by decide)).2
    (by decide)

/-! ### Claim C3 -/

/-- C3: for every raw text on which unindent is defined, fold equals the
run-collapse of the unindented output: each maximal run of `k` consecutive
newlines followed by a non-newline character becomes a space if `k = 1`, a
newline if `k ≥ 2`, nothing if `k = 0`, and a trailing run is discarded;
consequently every newline of the folded output comes from at least two
consecutive newlines of the unindented output. -/
theorem c3_fold_collapse (s U : List Char) (hU : to_unindented s = some U) :
    to_folded s = some (specCollapse U)
    ∧ ('\n' ∈ specCollapse U → ∃ l r, U = l ++ '\n' :: '\n' :: r) := by
  constructor
  · have h1 : to_folded s = some (foldCore U 0) := by
      unfold to_folded
      rw [hU]
      rfl
    rw [h1,
      foldCore_eq_specCollapse U
        (fun g hg hgnl => (unindented_getLast_ne s U hU g hg) (Or.inr hgnl))]
  · exact specCollapse_nl_mem U

theorem c3_fold_collapse_witness :
    to_folded ("ab\n\ncd\nef".toList) = some (specCollapse ("ab\n\ncd\nef".toList))
    ∧ ('\n' ∈ specCollapse ("ab\n\ncd\nef".toList) →
        ∃ l r, ("ab\n\ncd\nef".toList) = l ++ '\n' :: '\n' :: r) :=
  c3_fold_collapse ("ab\n\ncd\nef".toList) ("ab\n\ncd\nef".toList) (by decide)

/-! ### Claim C4 -/

/-- C4: on the documented example input, unindent returns exactly the
documented output. -/
theorem c4_scenario_a :
    to_unindented
        ("\n    def foo():\n      print(\"Hello\")\n      print(\"World\")\n  ".toList)
      = some ("def foo():\n  print(\"Hello\")\n  print(\"World\")".toList) := by
  decide

/-! ### Claim C5 -/

/-- C5: in the strip step every line of length at least MinimumIndent loses
exactly its first MinimumIndent characters, every shorter line is left
unchanged (so interior blank lines survive as empty lines), the lines of
the output are exactly the stripped lines of the outer-trimmed input, and
the blank-line scenario produces the documented output. -/
theorem c5_strip :
    (∀ s U m, (indentsOf (outerTrim s)).min? = some m → to_unindented s = some U →
        splitLines U = (splitLines (outerTrim s)).map (removeIndent m))
    ∧ (∀ (m : Nat) (l : Line), m ≤ l.length → removeIndent m l = l.drop m)
    ∧ (∀ (m : Nat) (l : Line), l.length < m → removeIndent m l = l)
    ∧ to_unindented ("\n    line1\n\n    line2\n  ".toList)
        = some ("line1\n\nline2".toList) := by
  refine ⟨?_, ?_, ?_, ?_⟩
  · intro s U m hmin hU
    exact splitLines_unindented s U m hmin hU
  · intro m l h
    unfold removeIndent
    rw [if_pos h]
  · intro m l h
    unfold removeIndent
    rw [if_neg (by omega)]
  · decide

theorem c5_strip_witness :
    splitLines ("line1\n\nline2".toList)
      = (splitLines (outerTrim ("\n    line1\n\n    line2\n  ".toList))).map
          (removeIndent 4)
    ∧ removeIndent 2 (' ' :: ' ' :: 'x' :: []) = ['x']
    ∧ removeIndent 3 (' ' :: []) = [' '] :=
  ⟨c5_strip.1 _ _ 4 (by decide) (by decide),
    c5_strip.2.1 2 (' ' :: ' ' :: 'x' :: []) (by decide),
    c5_strip.2.2.1 3 (' ' :: []) (by decide)⟩

end Unindent

namespace Unindent

/-! ### Claim C6 -/

/-- C6 counterexample: unindent is not idempotent.  For the raw text
`"  \n   y"` the output is `"\n y"` (the all-space minimum line strips to
an empty line), and re-applying unindent to `"\n y"` strips the leading
newline and the remaining indent, giving `"y"` — not the same text. -/
theorem c6_counterexample :
    to_unindented ("  \n   y".toList) = some ("\n y".toList)
    ∧ to_unindented ("\n y".toList) = some ("y".toList)
    ∧ ¬("y".toList = "\n y".toList) :=
  ⟨by decide, by decide, by decide⟩

/-- C6 (amended): unindent is idempotent at every raw text on which it is
defined and for which no non-blank line of the outer-trimmed text consists
entirely of spaces (every non-blank line has IndentWidth strictly below its
length). -/
theorem c6_amended (s U : List Char) (hU : to_unindented s = some U)
    (hns : ∀ l ∈ splitLines (outerTrim s), l ≠ [] → lineIndent l < l.length) :
    to_unindented U = some U := by
  obtain ⟨m, hmin, hUeq⟩ := (to_unindented_eq_some s U).1 hU
  have htne : outerTrim s ≠ [] := outerTrim_ne_nil_of_min s m hmin
  have hlines := splitLines_unindented s U m hmin hU
  -- the head of U is a character of the first line, hence not a newline
  have hheadU : ∀ h, U.head? = some h → ¬(h = '\n') := by
    cases ht : outerTrim s with
    | nil => exact absurd ht htne
    | cons c t' =>
      have hc : ¬(c = '\n') := outerTrim_head_ne s c (by rw [ht]; rfl)
      obtain ⟨p, ps, hsp⟩ := head_ne_of_splitOn_head '\n' c t' hc
      have hsp' : splitLines (outerTrim s) = (c :: p) :: ps := by
        rw [ht]
        exact hsp
      have hmem0 : (c :: p) ∈ splitLines (outerTrim s) := by
        rw [hsp']
        exact List.mem_cons_self _ _
      have hlt0 : lineIndent (c :: p) < (c :: p).length :=
        hns _ hmem0 (by simp)
      have hle0 : m ≤ lineIndent (c :: p) :=
        min_le_lineIndent _ m hmin _ hmem0 (by simp)
      have hrem0 : removeIndent m (c :: p) = (c :: p).drop m := by
        unfold removeIndent
        rw [if_pos (by omega)]
      have hne0 : removeIndent m (c :: p) ≠ [] := by
        rw [hrem0]
        intro hnil
        have hlen := List.length_drop m (c :: p)
        rw [hnil] at hlen
        simp only [List.length_nil] at hlen
        omega
      obtain ⟨d, hd⟩ : ∃ d, (removeIndent m (c :: p)).head? = some d := by
        rcases hx : (removeIndent m (c :: p)).head? with _ | d
        · rcases hy : removeIndent m (c :: p) with _ | ⟨e, es⟩
          · exact absurd hy hne0
          · rw [hy] at hx
            simp at hx
        · exact ⟨d, rfl⟩
      have hdmem : d ∈ (c :: p) := by
        obtain ⟨ys, hys⟩ := List.head?_eq_some_iff.1 hd
        exact removeIndent_subset m (c :: p) d (by rw [hys]; simp)
      have hdnl : ¬(d = '\n') := by
        intro hdl
        subst hdl
        exact splitLines_not_mem_nl _ _ hmem0 hdmem
      have hUhead : U.head? = some d := by
        rw [hUeq, hsp', List.map_cons]
        cases hmap : ps.map (removeIndent m) with
        | nil =>
          rw [intercalate_single]
          exact hd
        | cons q qs =>
          rw [intercalate_cons₂, List.append_assoc, List.head?_append, hd]
          rfl
      intro h hh
      rw [hUhead] at hh
      injection hh with he
      subst he
      exact hdnl
  have houter : outerTrim U = U :=
    outerTrim_eq_self U hheadU (unindented_getLast_ne s U hU)
  -- some non-blank line of U has indent zero
  obtain ⟨lstar, hlstar, hindstar⟩ :
      ∃ l, l ∈ nonblankLines (splitLines (outerTrim s)) ∧ lineIndent l = m := by
    have hm_mem : m ∈ indentsOf (outerTrim s) := (List.min?_eq_some_iff'.1 hmin).1
    unfold indentsOf at hm_mem
    obtain ⟨l, hl, hle⟩ := List.mem_map.1 hm_mem
    exact ⟨l, hl, hle⟩
  obtain ⟨hlmem, hlne⟩ : lstar ∈ splitLines (outerTrim s) ∧ lstar ≠ [] := by
    have := List.mem_filter.1 hlstar
    refine ⟨this.1, ?_⟩
    have hb := this.2
    simp at hb
    exact hb
  have hltstar : lineIndent lstar < lstar.length := hns lstar hlmem hlne
  have hremstar : removeIndent m lstar = lstar.drop m := by
    unfold removeIndent
    rw [if_pos (by omega)]
  have hnestar : removeIndent m lstar ≠ [] := by
    rw [hremstar]
    intro hnil
    have hlen := List.length_drop m lstar
    rw [hnil] at hlen
    simp at hlen
    omega
  have hindzero : lineIndent (removeIndent m lstar) = 0 := by
    rw [hremstar, ← hindstar, drop_lineIndent, lineIndent_dropWhile_zero]
  have h0mem : 0 ∈ indentsOf U := by
    have := mem_indentsOf U (removeIndent m lstar)
      (by rw [hlines]; exact List.mem_map.2 ⟨lstar, hlmem, rfl⟩) hnestar
    rw [hindzero] at this
    exact this
  have hminU : (indentsOf U).min? = some 0 :=
    List.min?_eq_some_iff'.2 ⟨h0mem, fun b _ => Nat.zero_le b⟩
  have hmap0 : (splitLines U).map (removeIndent 0) = splitLines U := by
    rw [funext removeIndent_zero]
    simp
  unfold to_unindented
  rw [houter, hminU]
  show some (List.intercalate ['\n'] ((splitLines U).map (removeIndent 0))) = some U
  rw [hmap0, intercalate_splitLines]

theorem c6_amended_witness : to_unindented ("a\n b".toList) = some ("a\n b".toList) :=
  c6_amended ("\na\n b\n".toList) ("a\n b".toList) (by decide) (by decide)

end Unindent

namespace Unindent

/-! ### Claim C7 -/

/-- C7: the outer trim removes exactly a (maximal) run of leading newlines
and a (maximal) trailing mixture of spaces and newlines: the text
decomposes as `pre ++ outerTrim s ++ post` with `pre` all newlines and
`post` all spaces-or-newlines, and the trimmed part neither starts with a
newline nor ends with a space or newline (so the trim stops at the first
non-space-non-newline character from each end, and leading spaces are not
removed). -/
theorem c7_outer_trim (s : List Char) :
    ∃ pre post, s = pre ++ outerTrim s ++ post
      ∧ (∀ c ∈ pre, c = '\n')
      ∧ (∀ c ∈ post, c = ' ' ∨ c = '\n')
      ∧ (∀ h, (outerTrim s).head? = some h → ¬(h = '\n'))
      ∧ (∀ g, (outerTrim s).getLast? = some g → ¬(g = ' ' ∨ g = '\n')) := by
  refine ⟨s.takeWhile (fun c => c == '\n'),
    ((s.dropWhile (fun c => c == '\n')).reverse.takeWhile
        (fun c => c == ' ' || c == '\n')).reverse, ?_, ?_, ?_,
    outerTrim_head_ne s, outerTrim_getLast_ne s⟩
  · have h1 : s = s.takeWhile (fun c => c == '\n') ++ s.dropWhile (fun c => c == '\n') :=
      (List.takeWhile_append_dropWhile _ _).symm
    have h3 := List.takeWhile_append_dropWhile
      (fun c => c == ' ' || c == '\n') (s.dropWhile (fun c => c == '\n')).reverse
    have h4 := congrArg List.reverse h3
    rw [List.reverse_append, List.reverse_reverse] at h4
    have h2 : s.dropWhile (fun c => c == '\n')
        = outerTrim s ++ ((s.dropWhile (fun c => c == '\n')).reverse.takeWhile
            (fun c => c == ' ' || c == '\n')).reverse := by
      unfold outerTrim
      exact h4.symm
    conv_lhs => rw [h1, h2]
    rw [List.append_assoc]
  · intro c hc
    have := List.mem_takeWhile_imp hc
    simpa using this
  · intro c hc
    rw [List.mem_reverse] at hc
    have := List.mem_takeWhile_imp hc
    simpa using this

theorem c7_outer_trim_witness :
    ∃ pre post, ("\n ab \n".toList) = pre ++ outerTrim ("\n ab \n".toList) ++ post
      ∧ (∀ c ∈ pre, c = '\n')
      ∧ (∀ c ∈ post, c = ' ' ∨ c = '\n')
      ∧ (∀ h, (outerTrim ("\n ab \n".toList)).head? = some h → ¬(h = '\n'))
      ∧ (∀ g, (outerTrim ("\n ab \n".toList)).getLast? = some g →
          ¬(g = ' ' ∨ g = '\n')) :=
  c7_outer_trim ("\n ab \n".toList)

end Unindent

namespace Unindent

/-! ### Claim C8: the value object and its comparisons -/

/-- The `edited_string` value object, abstracted to its stored `value_`
content: the characters of the edited string before the terminator, as
exposed read-only by `value()`. -/
structure edited_string where
  content : List Char

/-- `operator<=>` of `std::basic_string_view` over a character type:
lexicographical three-way comparison of the two character sequences
(`std::lexicographical_compare_three_way` over character values). -/
def svCompare : List Char → List Char → Ordering
  | [], [] => Ordering.eq
  | [], _ :: _ => Ordering.lt
  | _ :: _, [] => Ordering.gt
  | a :: as, b :: bs =>
    if a < b then Ordering.lt
    else if b < a then Ordering.gt
    else svCompare as bs

/-- `operator<=>(S1&&, S2&&)` between two edited strings of the same
character type: `S1::value() <=> S2::value()`. -/
def esCompare (x y : edited_string) : Ordering :=
  svCompare x.content y.content

/-- `operator<=>(const Self&, basic_string_view rhs)`:
`Self::value() <=> rhs`. -/
def esCompareSv (x : edited_string) (s : List Char) : Ordering :=
  svCompare x.content s

/-- `operator<=>(basic_string_view lhs, const Self&)`:
`lhs <=> Self::value()`. -/
def svCompareEs (s : List Char) (x : edited_string) : Ordering :=
  svCompare s x.content

theorem svCompare_cons (a b : Char) (as bs : List Char) :
    svCompare (a :: as) (b :: bs)
      = if a < b then Ordering.lt
        else if b < a then Ordering.gt
        else svCompare as bs := rfl

theorem svCompare_eq_iff (x : List Char) :
    ∀ y, svCompare x y = Ordering.eq ↔ x = y := by
  induction x with
  | nil =>
    intro y
    cases y with
    | nil => simp [svCompare]
    | cons b bs => simp [svCompare]
  | cons a as ih =>
    intro y
    cases y with
    | nil => simp [svCompare]
    | cons b bs =>
      rw [svCompare_cons]
      rcases lt_trichotomy a b with h | h | h
      · rw [if_pos h]
        simp only [List.cons.injEq]
        constructor
        · intro hc
          exact absurd hc (by simp)
        · rintro ⟨hab, -⟩
          exact absurd hab (ne_of_lt h)
      · subst h
        rw [if_neg (lt_irrefl a), if_neg (lt_irrefl a), ih bs]
        simp
      · rw [if_neg (lt_asymm h), if_pos h]
        simp only [List.cons.injEq]
        constructor
        · intro hc
          exact absurd hc (by simp)
        · rintro ⟨hab, -⟩
          exact absurd hab (ne_of_gt h)

theorem svCompare_lt_iff (x : List Char) :
    ∀ y, svCompare x y = Ordering.lt ↔ List.Lex (· < ·) x y := by
  induction x with
  | nil =>
    intro y
    cases y with
    | nil =>
      constructor
      · intro hc
        exact absurd hc (by simp [svCompare])
      · intro h
        exact absurd h (List.Lex.not_nil_right _ _)
    | cons b bs =>
      constructor
      · intro _
        exact List.Lex.nil
      · intro _
        rfl
  | cons a as ih =>
    intro y
    cases y with
    | nil =>
      constructor
      · intro hc
        exact absurd hc (by simp [svCompare])
      · intro h
        exact absurd h (List.Lex.not_nil_right _ _)
    | cons b bs =>
      rw [svCompare_cons]
      rcases lt_trichotomy a b with h | h | h
      · rw [if_pos h]
        constructor
        · intro _
          exact List.Lex.rel h
        · intro _
          rfl
      · subst h
        rw [if_neg (lt_irrefl a), if_neg (lt_irrefl a), ih bs]
        exact List.Lex.cons_iff.symm
      · rw [if_neg (lt_asymm h), if_pos h]
        constructor
        · intro hc
          exact absurd hc (by simp)
        · intro hlex
          cases hlex with
          | cons htail => exact absurd h (lt_irrefl a)
          | rel hrel => exact absurd hrel (lt_asymm h)

theorem svCompare_gt_iff (x : List Char) :
    ∀ y, svCompare x y = Ordering.gt ↔ List.Lex (· < ·) y x := by
  induction x with
  | nil =>
    intro y
    cases y with
    | nil =>
      constructor
      · intro hc
        exact absurd hc (by simp [svCompare])
      · intro h
        exact absurd h (List.Lex.not_nil_right _ _)
    | cons b bs =>
      constructor
      · intro hc
        exact absurd hc (by simp [svCompare])
      · intro h
        exact absurd h (List.Lex.not_nil_right _ _)
  | cons a as ih =>
    intro y
    cases y with
    | nil =>
      constructor
      · intro _
        exact List.Lex.nil
      · intro _
        rfl
    | cons b bs =>
      rw [svCompare_cons]
      rcases lt_trichotomy a b with h | h | h
      · rw [if_pos h]
        constructor
        · intro hc
          exact absurd hc (by simp)
        · intro hlex
          cases hlex with
          | cons htail => exact absurd h (lt_irrefl a)
          | rel hrel => exact absurd hrel (lt_asymm h)
      · subst h
        rw [if_neg (lt_irrefl a), if_neg (lt_irrefl a), ih bs]
        exact List.Lex.cons_iff.symm
      · rw [if_neg (lt_asymm h), if_pos h]
        constructor
        · intro _
          exact List.Lex.rel h
        · intro _
          rfl

/-- C8: for two TransformedText values of the same character type, and for
a TransformedText compared with a plain string in either argument order,
the three-way comparison is `eq` iff the content strings are
character-for-character equal, `lt`/`gt` exactly when the contents compare
lexicographically. -/
theorem c8_comparisons (x y : edited_string) (s : List Char) :
    (esCompare x y = Ordering.eq ↔ x.content = y.content)
    ∧ (esCompare x y = Ordering.lt ↔ List.Lex (· < ·) x.content y.content)
    ∧ (esCompare x y = Ordering.gt ↔ List.Lex (· < ·) y.content x.content)
    ∧ (esCompareSv x s = Ordering.eq ↔ x.content = s)
    ∧ (esCompareSv x s = Ordering.lt ↔ List.Lex (· < ·) x.content s)
    ∧ (esCompareSv x s = Ordering.gt ↔ List.Lex (· < ·) s x.content)
    ∧ (svCompareEs s x = Ordering.eq ↔ s = x.content)
    ∧ (svCompareEs s x = Ordering.lt ↔ List.Lex (· < ·) s x.content)
    ∧ (svCompareEs s x = Ordering.gt ↔ List.Lex (· < ·) x.content s) :=
  ⟨svCompare_eq_iff _ _, svCompare_lt_iff _ _, svCompare_gt_iff _ _,
    svCompare_eq_iff _ _, svCompare_lt_iff _ _, svCompare_gt_iff _ _,
    svCompare_eq_iff _ _, svCompare_lt_iff _ _, svCompare_gt_iff _ _⟩

end Unindent

namespace Unindent

/-! ### Claim C9: format -/

/-- Modelled from the spec: the external formatting collaborator
`format(template_string, args...) -> string` of §6, which is outside this
repository (`std::format`).  Positional placeholders (the two-character
sequences `\x7b\x7d`) are substituted left-to-right by the arguments in
order; the service fails with a formatting error when the placeholder
count does not match the argument count. -/
def formatService : List Char → List (List Char) → Except Unit (List Char)
  | '\x7b' :: '\x7d' :: rest, args =>
    match args with
    | [] => Except.error ()
    | a :: args => (formatService rest args).map (fun r => a ++ r)
  | c :: rest, args => (formatService rest args).map (fun r => c :: r)
  | [], args =>
    match args with
    | [] => Except.ok []
    | _ :: _ => Except.error ()

/-- `edited_string::format(args...)`:
`return std::format(value(), std::forward<decltype(args)>(args)...);` —
the stored content is forwarded unchanged as the format template. -/
def es_format (x : edited_string) (args : List (List Char)) :
    Except Unit (List Char) :=
  formatService x.content args

/-- C9: `format` forwards the stored content `value()` as the template to
the external formatting service with the arguments substituted
positionally left-to-right, leaving the stored value unchanged (the
operation is a pure function of the value); an error of the service (a
placeholder/argument mismatch) propagates to the caller unchanged; and the
two-line two-placeholder folded template formatted with "Hello" and
"World" yields "Hello World". -/
theorem c9_format (x : edited_string) (args : List (List Char)) :
    es_format x args = formatService x.content args
    ∧ (∀ e, formatService x.content args = Except.error e →
        es_format x args = Except.error e)
    ∧ to_folded ("\n    \x7b\x7d\n    \x7b\x7d\n  ".toList)
        = some ("\x7b\x7d \x7b\x7d".toList)
    ∧ formatService ("\x7b\x7d \x7b\x7d".toList) ["Hello".toList, "World".toList]
        = Except.ok ("Hello World".toList) := by
  refine ⟨rfl, ?_, by decide, rfl⟩
  intro e he
  exact he

theorem c9_format_witness :
    es_format (edited_string.mk ("\x7b\x7d".toList)) [] = Except.error () :=
  (c9_format (edited_string.mk ("\x7b\x7d".toList)) []).2.1 () rfl

/-! ### Claim C10: output loops stay in bounds, value() is a proper prefix -/

theorem foldFlush_length_le (r : Nat) : (foldFlush r).length ≤ 1 := by
  unfold foldFlush
  split
  · exact Nat.le_refl _
  · split
    · exact Nat.le_refl _
    · exact Nat.zero_le _

theorem foldCore_length_le (u : List Char) :
    ∀ r, (foldCore u r).length ≤ u.length + (foldFlush r).length := by
  induction u with
  | nil =>
    intro r
    rw [show foldCore [] r = foldFlush r from rfl]
    omega
  | cons c cs ih =>
    intro r
    rw [foldCore_cons]
    by_cases hc : (c == '\n') = true
    · rw [if_pos hc]
      have h1 := ih (r + 1)
      have h2 := foldFlush_length_le (r + 1)
      simp only [List.length_cons]
      omega
    · rw [if_neg hc]
      simp only [List.length_append, List.length_cons]
      have h1 := ih 0
      have h2 : (foldFlush 0).length = 0 := rfl
      omega

theorem takeWhile_until_nul (U rest : List Char) (h : '\x00' ∉ U) :
    (U ++ '\x00' :: rest).takeWhile (fun c => !(c == '\x00')) = U := by
  induction U with
  | nil => simp [List.takeWhile_cons]
  | cons c cs ih =>
    rw [List.cons_append, List.takeWhile_cons]
    have hc : ¬(c = '\x00') := fun hx => h (hx ▸ List.mem_cons_self _ _)
    rw [if_pos (by simp [hc])]
    rw [ih (fun hx => h (List.mem_cons_of_mem _ hx))]

theorem mem_unindented (s U : List Char) (hU : to_unindented s = some U) :
    ∀ c ∈ U, c ∈ s ∨ c = '\n' := by
  obtain ⟨m, hmin, hUeq⟩ := (to_unindented_eq_some s U).1 hU
  intro c hc
  rw [hUeq] at hc
  rcases mem_intercalate _ _ _ hc with ⟨l, hl, hcl⟩ | hsep
  · left
    obtain ⟨l0, hl0, rfl⟩ := List.mem_map.1 hl
    have hc0 : c ∈ l0 := removeIndent_subset m l0 c hcl
    have hct : c ∈ outerTrim s := by
      rw [← intercalate_splitLines (outerTrim s)]
      exact mem_of_mem_intercalate _ _ l0 hl0 c hc0
    exact mem_outerTrim s c hct
  · right
    simpa using hsep

theorem length_unindented_le (s U : List Char) (hU : to_unindented s = some U) :
    U.length ≤ s.length := by
  obtain ⟨m, hmin, hUeq⟩ := (to_unindented_eq_some s U).1 hU
  have h1 : U.length ≤ (List.intercalate ['\n'] (splitLines (outerTrim s))).length := by
    rw [hUeq]
    exact length_intercalate_le ['\n'] (removeIndent m) (removeIndent_length_le m) _
  rw [intercalate_splitLines] at h1
  exact Nat.le_trans h1 (outerTrim_length_le s)

/-- C10: with the literal (plus terminator) stored in an array of size
`s.length + 1`, the unindent output loop writes exactly the stripped lines
each followed by one newline — `U.length + 1` characters, at least one and
at most the array size, so every write and the final
`buffer[index - 1] = '\0'` overwrite are in bounds; the fold loop's total
writes (its emitted characters plus one write per remaining array slot of
the unindent result) also never exceed the array size; and when the
literal contains no `'\0'`, the finished unindent array is the content
followed by a `'\0'` terminator and zero padding, so `value()` — the
prefix before the first `'\0'` — is exactly the edited content. -/
theorem c10_bounds (s U : List Char) (hU : to_unindented s = some U) :
    (∃ w, unindentWriteSeq s = some w ∧ w = U ++ ['\n']
      ∧ 1 ≤ w.length ∧ w.length ≤ s.length + 1)
    ∧ (foldCore U 0).length + (s.length + 1 - U.length) ≤ s.length + 1
    ∧ ('\x00' ∉ s → '\x00' ∉ U ∧
        (U ++ '\x00' :: List.replicate (s.length - U.length) '\x00').takeWhile
            (fun c => !(c == '\x00')) = U) := by
  obtain ⟨m, hmin, hUeq⟩ := (to_unindented_eq_some s U).1 hU
  have hlen : U.length ≤ s.length := length_unindented_le s U hU
  refine ⟨?_, ?_, ?_⟩
  · refine ⟨U ++ ['\n'], ?_, rfl, by simp, by simp; omega⟩
    unfold unindentWriteSeq
    rw [hmin]
    show some ((((splitLines (outerTrim s)).map (removeIndent m)).map
        (fun l => l ++ ['\n'])).flatten) = some (U ++ ['\n'])
    rw [flatten_map_append_single '\n' _ (by simp [splitLines_ne_nil])]
    rw [← hUeq]
  · have h1 := foldCore_length_le U 0
    have h2 : (foldFlush 0).length = 0 := rfl
    omega
  · intro hs
    have hnU : '\x00' ∉ U := by
      intro hmem
      rcases mem_unindented s U hU '\x00' hmem with h | h
      · exact hs h
      · exact absurd h (by decide)
    exact ⟨hnU, takeWhile_until_nul U _ hnU⟩

theorem c10_bounds_witness :
    '\x00' ∉ ("ab\ncd".toList)
    ∧ (("ab\ncd".toList)
          ++ '\x00' :: List.replicate (("ab\ncd".toList).length
              - ("ab\ncd".toList).length) '\x00').takeWhile
          (fun c => !(c == '\x00')) = ("ab\ncd".toList) :=
  (c10_bounds ("ab\ncd".toList) ("ab\ncd".toList) (by decide)).2.2 (by decide)

end Unindent

namespace Unindent

theorem c1_amended_total_witness :
    (((to_unindented (" a ".toList)).isSome
        ↔ (∃ l ∈ splitLines (outerTrim (" a ".toList)), l ≠ []))
      ∧ ((∃ l ∈ splitLines (outerTrim (" a ".toList)), l ≠ [])
        ↔ outerTrim (" a ".toList) ≠ [])) :=
  c1_amended_total (" a ".toList)

theorem c8_comparisons_witness :
    (esCompare (edited_string.mk ("ab".toList)) (edited_string.mk ("ac".toList))
        = Ordering.eq ↔ ("ab".toList) = ("ac".toList))
    ∧ (esCompare (edited_string.mk ("ab".toList)) (edited_string.mk ("ac".toList))
        = Ordering.lt ↔ List.Lex (· < ·) ("ab".toList) ("ac".toList))
    ∧ (esCompare (edited_string.mk ("ab".toList)) (edited_string.mk ("ac".toList))
        = Ordering.gt ↔ List.Lex (· < ·) ("ac".toList) ("ab".toList))
    ∧ (esCompareSv (edited_string.mk ("ab".toList)) ("b".toList)
        = Ordering.eq ↔ ("ab".toList) = ("b".toList))
    ∧ (esCompareSv (edited_string.mk ("ab".toList)) ("b".toList)
        = Ordering.lt ↔ List.Lex (· < ·) ("ab".toList) ("b".toList))
    ∧ (esCompareSv (edited_string.mk ("ab".toList)) ("b".toList)
        = Ordering.gt ↔ List.Lex (· < ·) ("b".toList) ("ab".toList))
    ∧ (svCompareEs ("b".toList) (edited_string.mk ("ab".toList))
        = Ordering.eq ↔ ("b".toList) = ("ab".toList))
    ∧ (svCompareEs ("b".toList) (edited_string.mk ("ab".toList))
        = Ordering.lt ↔ List.Lex (· < ·) ("b".toList) ("ab".toList))
    ∧ (svCompareEs ("b".toList) (edited_string.mk ("ab".toList))
        = Ordering.gt ↔ List.Lex (· < ·) ("ab".toList) ("b".toList)) :=
  c8_comparisons (edited_string.mk ("ab".toList)) (edited_string.mk ("ac".toList))
    ("b".toList)

end Unindent
